import Mathlib

/-!
Shallow embedding of `src/equation-fuzzer.cpp` (the `EquationFuzzer` class
template and `main`).

Modelling choices:
* `double` values are modelled as rationals (`ℚ`); every floating-point
  value the program manipulates here is produced by `+`, `-`, truncation
  and absolute value, all of which restrict to `ℚ`.
* The pseudorandom source (`std::default_random_engine` together with the
  two distributions `unifSizeT` and `unifDouble`) is modelled as a `Tape`:
  two abstract streams of draws, one of naturals (for `unifSizeT`) and one
  of rationals (for `unifDouble`), consumed left to right.  The C++
  contract of `std::uniform_real_distribution<double>(-100, 100)` is that
  every draw lies in the half-open interval `[-100, 100)`; theorems that
  need this take it as a hypothesis on the tape.
* The expression evaluator (`exprtk`) is an external collaborator; it is
  modelled as a function from expression text to either a compile error
  message or an evaluation function on assignments.  Each call of the
  C++ member `calc` constructs a fresh parser and compiles the expression
  anew; the model records every compile in a `compiles` log.
* `exit(1)` inside `calc` (compile failure) is modelled by the
  `StepResult.fail` outcome, and returning from `Fuzz` (solution found)
  by `StepResult.done`.
* The `while (!ret)` loop of `getRandomDouble` is modelled with explicit
  fuel; `none` means the fuel was exhausted while drawing only zeros.
-/

/-- The random source: the streams of values produced by `unifSizeT(prng)`
and `unifDouble(prng)` respectively, in the order they are drawn. -/
structure Tape where
  nats : Nat → Nat
  qs : Nat → ℚ

/-- Embedding of `getRandomDouble` (lines 33-42): draw from `unifDouble`
until the result is nonzero.  `qp` is the current position in the rational
stream; the result is the drawn value and the next position, or `none`
when `fuel` draws were all zero. -/
def getRandomDouble (t : Tape) : Nat → Nat → Option (ℚ × Nat)
  | 0, _ => none
  | fuel + 1, qp =>
    if t.qs qp = 0 then getRandomDouble t fuel (qp + 1)
    else some (t.qs qp, qp + 1)

/-- Truncation toward zero, the effect of `ns.numbers[whichNum] -=
std::modf(ns.numbers[whichNum], &z)` (line 136): `modf` returns the
fractional part with the same sign as its argument, so subtracting it
truncates toward zero. -/
def truncQ (q : ℚ) : ℚ := if 0 ≤ q then ((⌊q⌋ : ℤ) : ℚ) else ((⌈q⌉ : ℤ) : ℚ)

/-- One perturbation of the `for (j = 0; j < 3; ...)` body of `mutate`
(lines 114-138): add or subtract the drawn magnitude `d` at slot `i`,
then, when `rd` (the `round` flag) is set, truncate that slot toward
zero. -/
def applyPerturb (rd : Bool) (ns : List ℚ) (i : Nat) (add : Bool) (d : ℚ) : List ℚ :=
  let v := if add then ns.getD i 0 + d else ns.getD i 0 - d
  ns.set i (if rd then truncQ v else v)

/-- The run-wide configuration of an `EquationFuzzer<NumNumbers>` instance:
the template parameter `NumNumbers`, the `round` flag and the constructor
arguments `conditions`, `expr1`, `expr2`. -/
structure Config where
  NumNumbers : Nat
  round : Bool
  conditions : List String
  expr1 : String
  expr2 : String
  deriving DecidableEq, Repr

/-- One iteration of the `for (j = 0; j < 3; ...)` loop of `mutate`
(lines 114-138): draw `whichNum` and `whichMutator` from `unifSizeT`,
draw a nonzero magnitude via `getRandomDouble`, and apply the
perturbation.  `np`/`qp` are the positions in the two streams. -/
def mutStep (cfg : Config) (t : Tape) (fuel : Nat) (ns : List ℚ) (np qp : Nat) :
    Option (List ℚ × Nat × Nat) :=
  let whichNum := t.nats np % cfg.NumNumbers
  let whichMutator := t.nats (np + 1) % 2
  match getRandomDouble t fuel qp with
  | none => none
  | some (d, qp') => some (applyPerturb cfg.round ns whichNum (whichMutator == 0) d, np + 2, qp')

/-- Embedding of `mutate` (lines 110-142): sample a base assignment from
the corpus (`getStatic`, line 146: index `unifSizeT(prng) % corpus.size()`)
and perform the three perturbation steps.  The surrounding
`while (true)` of the C++ code returns on its first iteration. -/
def mutate (cfg : Config) (t : Tape) (fuel : Nat) (corpus : List (List ℚ)) (np qp : Nat) :
    Option (List ℚ × Nat × Nat) :=
  let base := corpus.getD (t.nats np % corpus.length) []
  match mutStep cfg t fuel base (np + 1) qp with
  | none => none
  | some (ns1, np1, qp1) =>
    match mutStep cfg t fuel ns1 np1 qp1 with
    | none => none
    | some (ns2, np2, qp2) =>
      match mutStep cfg t fuel ns2 np2 qp2 with
      | none => none
      | some r => some r

/-- The external expression evaluator (`exprtk`): compiling an expression
text either fails with an error message or yields a function evaluating
the expression on an assignment (the bound variables `a`, `b`, ...). -/
abbrev Evaluator := String → Except String (List ℚ → ℚ)

/-- Embedding of the condition test of `Fuzz` (lines 169-184): evaluate
the conditions in order via `calc`, stopping at the first whose value is
not exactly `1.0`.  `.error (msg, c)` models the `exit(1)` of `calc` on a
compile failure of condition `c`; `.ok (b, l)` returns whether every
condition evaluated to `1.0` together with the list of condition texts
that were actually compiled (one compile per `calc` call). -/
def checkConditions (ev : Evaluator) : List String → List ℚ → Except (String × String) (Bool × List String)
  | [], _ => .ok (true, [])
  | c :: rest, ns =>
    match ev c with
    | .error msg => .error (msg, c)
    | .ok f =>
      if f ns = 1 then
        match checkConditions ev rest ns with
        | .error e => .error e
        | .ok (b, l) => .ok (b, c :: l)
      else .ok (false, [c])

/-- Embedding of `numStructToDiff` (lines 103-108): evaluate `expr1` and
`expr2` on the assignment and return both results together with
`std::abs(res1 > res2 ? res1 - res2 : res2 - res1)`.  A compile failure
of either expression is the `exit(1)` of `calc`, modelled as `.error`. -/
def numStructToDiff (ev : Evaluator) (e1 e2 : String) (ns : List ℚ) :
    Except (String × String) (ℚ × ℚ × ℚ) :=
  match ev e1 with
  | .error msg => .error (msg, e1)
  | .ok f1 =>
    match ev e2 with
    | .error msg => .error (msg, e2)
    | .ok f2 =>
      .ok (f1 ns, f2 ns, |if f1 ns > f2 ns then f1 ns - f2 ns else f2 ns - f1 ns|)

/-- The acceptance test of `Fuzz` (lines 189-190):
`!diff || (diff && curDiff < *diff)`. -/
def decideAccept (diff : Option ℚ) (curDiff : ℚ) : Bool :=
  !diff.isSome || (diff.isSome && decide (curDiff < diff.getD 0))

/-- The mutable state of a run of `Fuzz`: the corpus, the iteration
counter `iter`, the best difference `diff` (a `boost::optional<double>`),
the positions reached in the two random streams, and the log of all
expression texts compiled so far. -/
structure FuzzState where
  corpus : List (List ℚ)
  iter : Nat
  best : Option ℚ
  natPos : Nat
  qPos : Nat
  compiles : List String
  deriving DecidableEq, Repr

/-- Outcome of one iteration of the `while (true)` loop of `Fuzz`:
continue looping (`next`), return with a solution (`done`, the reported
assignment attached), abort the process from within `calc` on a compile
failure (`fail`, carrying the error message and the offending expression
text), or exhaust the model's fuel for `getRandomDouble` (`outOfFuel`). -/
inductive StepResult where
  | next (s : FuzzState)
  | done (s : FuzzState) (ns : List ℚ)
  | fail (msg expr : String)
  | outOfFuel
  deriving DecidableEq, Repr

/-- One iteration of the `while (true)` loop of `Fuzz` (lines 166-219). -/
def step (cfg : Config) (ev : Evaluator) (t : Tape) (fuel : Nat) (s : FuzzState) : StepResult :=
  match mutate cfg t fuel s.corpus s.natPos s.qPos with
  | none => .outOfFuel
  | some (ns, np, qp) =>
    match checkConditions ev cfg.conditions ns with
    | .error e => .fail e.1 e.2
    | .ok (false, cl) =>
      .next { s with natPos := np, qPos := qp, compiles := s.compiles ++ cl }
    | .ok (true, cl) =>
      match numStructToDiff ev cfg.expr1 cfg.expr2 ns with
      | .error e => .fail e.1 e.2
      | .ok (_, _, curDiff) =>
        let compiles' := s.compiles ++ cl ++ [cfg.expr1, cfg.expr2]
        if decideAccept s.best curDiff then
          let s' : FuzzState :=
            ⟨s.corpus ++ [ns], s.iter + 1, some curDiff, np, qp, compiles'⟩
          if curDiff = 0 then .done s' ns else .next s'
        else
          .next { s with iter := s.iter + 1, natPos := np, qPos := qp, compiles := compiles' }

/-- Result of running the loop for a bounded number of iterations:
either it is still `running`, or it reached one of the exits of `step`. -/
inductive RunResult where
  | running (s : FuzzState)
  | done (s : FuzzState) (ns : List ℚ)
  | fail (msg expr : String)
  | outOfFuel
  deriving DecidableEq, Repr

/-- Run at most `n` iterations of the `Fuzz` loop from state `s`. -/
def runFuzz (cfg : Config) (ev : Evaluator) (t : Tape) (fuel : Nat) : Nat → FuzzState → RunResult
  | 0, s => .running s
  | n + 1, s =>
    match step cfg ev t fuel s with
    | .next s' => runFuzz cfg ev t fuel n s'
    | .done s' ns => .done s' ns
    | .fail msg e => .fail msg e
    | .outOfFuel => .outOfFuel

/-- The state carried by a run outcome, when the process is still alive
(either looping or just returned from `Fuzz`). -/
def RunResult.state? : RunResult → Option FuzzState
  | .running s => some s
  | .done s _ => some s
  | _ => none

/-- The state of a freshly constructed `EquationFuzzer` (constructor,
lines 150-161): the corpus holds the single value-initialized
`NumStruct {}`, i.e. `NumNumbers` zeros; `iter` is `0`; `diff` is unset;
no random draws and no compiles have happened yet. -/
def initState (cfg : Config) : FuzzState :=
  ⟨[List.replicate cfg.NumNumbers 0], 0, none, 0, 0, []⟩

/-- Whether the candidate of the next loop iteration from state `s` will
be accepted: it passes all conditions and satisfies the acceptance test
against the current best difference. -/
def stepAccepted (cfg : Config) (ev : Evaluator) (t : Tape) (fuel : Nat) (s : FuzzState) : Bool :=
  match mutate cfg t fuel s.corpus s.natPos s.qPos with
  | none => false
  | some (ns, _, _) =>
    match checkConditions ev cfg.conditions ns with
    | .ok (true, _) =>
      match numStructToDiff ev cfg.expr1 cfg.expr2 ns with
      | .ok (_, _, d) => decideAccept s.best d
      | .error _ => false
    | _ => false

/-- Number of accepted candidates among the first `n` loop iterations
starting from state `s` (counting stops if the loop exits). -/
def countAccepted (cfg : Config) (ev : Evaluator) (t : Tape) (fuel : Nat) : Nat → FuzzState → Nat
  | 0, _ => 0
  | n + 1, s =>
    (if stepAccepted cfg ev t fuel s then 1 else 0) +
      match step cfg ev t fuel s with
      | .next s' => countAccepted cfg ev t fuel n s'
      | _ => 0

/-- An assignment all of whose values are integral (zero fractional
part). -/
def allIntegral (ns : List ℚ) : Prop := ∀ q ∈ ns, q.den = 1

instance (ns : List ℚ) : Decidable (allIntegral ns) := by
  unfold allIntegral; infer_instance

/-- Embedding of `main` (lines 223-246): with fewer than two expression
arguments the program prints usage and exits (modelled as `none`);
otherwise it constructs `EquationFuzzer<6>(argv[1], argv[2], conditions)`
— leaving the constructor's `round` parameter at its default `true` —
with the conditions taken from `argv[3..]`, and runs `Fuzz`. -/
def mainModel (argv : List String) : Option Config :=
  if argv.length ≤ 2 then none
  else some ⟨6, true, argv.drop 3, argv.getD 1 "", argv.getD 2 ""⟩

/-! ### Concrete fixtures used in witnesses and counterexamples -/

/-- An evaluator for the immediate-termination scenario: `"a"` evaluates
to the first variable, `"0"` to the constant zero, anything else fails to
compile. -/
def evA : Evaluator := fun e =>
  if e = "a" then .ok (fun ns => ns.getD 0 0)
  else if e = "0" then .ok (fun _ => 0)
  else .error "compile error"

/-- An evaluator where `"zero"` and `"0"` compile to the constant zero
and everything else fails to compile. -/
def evB : Evaluator := fun e =>
  if e = "zero" then .ok (fun _ => 0)
  else if e = "0" then .ok (fun _ => 0)
  else .error "compile error"

/-- A tape whose `unifDouble` draws are all `7`. -/
def tape7 : Tape := ⟨fun _ => 0, fun _ => 7⟩

/-- A tape whose `unifDouble` draws are all `1/2`. -/
def tapeHalf : Tape := ⟨fun _ => 0, fun _ => 1/2⟩

/-- A tape whose `unifDouble` draws are all `-100`; every draw lies in
the half-open interval `[-100, 100)` guaranteed by
`std::uniform_real_distribution<double>(-100, 100)`. -/
def tapeNeg100 : Tape := ⟨fun _ => 0, fun _ => -100⟩

/-- The configuration of the immediate-termination scenario:
`N = 1`, `expr1 = "a"`, `expr2 = "0"`, no conditions. -/
def cfg8 : Config := ⟨1, true, [], "a", "0"⟩

/-- A configuration whose `expr1` does not compile under `evB` and whose
single condition `"zero"` always evaluates to `0`. -/
def cfgBad : Config := ⟨1, true, ["zero"], "x", "0"⟩

/-- A configuration whose `expr1` does not compile under `evB` and which
has no conditions. -/
def cfgFail : Config := ⟨1, true, [], "x", "0"⟩

/-- The configuration constructed by `main` for the invocation
`prog a 0`. -/
def cfgMain : Config := ⟨6, true, [], "a", "0"⟩

/-- The state after the first loop iteration of the immediate-termination
scenario on `tape7`: the candidate `[21]` was accepted with difference
`21`. -/
def s21 : FuzzState := ⟨[[0], [21]], 1, some 21, 7, 3, ["a", "0"]⟩

/-- The state after two loop iterations of the immediate-termination
scenario on `tape7`: the second candidate `[21]` ties the best difference
and is rejected. -/
def s21b : FuzzState := ⟨[[0], [21]], 2, some 21, 14, 6, ["a", "0", "a", "0"]⟩

/-- The state reached when the first candidate of the
immediate-termination scenario is `[0]`: accepted with difference `0`,
the loop returns. -/
def sDone : FuzzState := ⟨[[0], [0]], 1, some 0, 7, 3, ["a", "0"]⟩

/-! ### Helper lemmas -/

/-- The acceptance test is true exactly when the best difference is
unset or the candidate's difference is strictly smaller. -/
lemma decideAccept_iff (b : Option ℚ) (d : ℚ) :
    decideAccept b d = true ↔ (b = none ∨ ∃ v, b = some v ∧ d < v) := by
  cases b with
  | none => simp [decideAccept]
  | some v => simp [decideAccept]

/-- A value returned by `getRandomDouble` is never zero. -/
lemma getRandomDouble_ne_zero (t : Tape) :
    ∀ fuel qp v qp', getRandomDouble t fuel qp = some (v, qp') → v ≠ 0 := by
  intro fuel
  induction fuel with
  | zero => intro qp v qp' h; simp [getRandomDouble] at h
  | succ n ih =>
    intro qp v qp' h
    rw [getRandomDouble] at h
    by_cases hz : t.qs qp = 0
    · rw [if_pos hz] at h; exact ih _ _ _ h
    · rw [if_neg hz] at h
      simp only [Option.some.injEq, Prod.mk.injEq] at h
      exact h.1 ▸ hz

/-- When every tape draw respects the contract of
`std::uniform_real_distribution<double>(-100, 100)` — it lies in
`[-100, 100)` — so does every value returned by `getRandomDouble`. -/
lemma getRandomDouble_range (t : Tape) (hT : ∀ i, -100 ≤ t.qs i ∧ t.qs i < 100) :
    ∀ fuel qp v qp', getRandomDouble t fuel qp = some (v, qp') → -100 ≤ v ∧ v < 100 := by
  intro fuel
  induction fuel with
  | zero => intro qp v qp' h; simp [getRandomDouble] at h
  | succ n ih =>
    intro qp v qp' h
    rw [getRandomDouble] at h
    by_cases hz : t.qs qp = 0
    · rw [if_pos hz] at h; exact ih _ _ _ h
    · rw [if_neg hz] at h
      simp only [Option.some.injEq, Prod.mk.injEq] at h
      exact h.1 ▸ hT qp

/-- With at least one unit of fuel and a zero-free tape,
`getRandomDouble` succeeds immediately. -/
lemma getRandomDouble_total (t : Tape) (hT : ∀ i, t.qs i ≠ 0) (qp : Nat) :
    getRandomDouble t 1 qp = some (t.qs qp, qp + 1) := by
  rw [getRandomDouble, if_neg (hT qp)]

/-- Inversion for one perturbation step: it consumes two `unifSizeT`
draws, one `getRandomDouble` value, and applies `applyPerturb`. -/
lemma mutStep_eq_some {cfg : Config} {t fuel ns np qp ns' np' qp'}
    (h : mutStep cfg t fuel ns np qp = some (ns', np', qp')) :
    ∃ d qp2, getRandomDouble t fuel qp = some (d, qp2) ∧
      ns' = applyPerturb cfg.round ns (t.nats np % cfg.NumNumbers)
              (t.nats (np + 1) % 2 == 0) d ∧
      np' = np + 2 ∧ qp' = qp2 := by
  simp only [mutStep] at h
  split at h
  · exact Option.noConfusion h
  · rename_i d q2 hg
    simp only [Option.some.injEq, Prod.mk.injEq] at h
    exact ⟨d, q2, hg, h.1.symm, h.2.1.symm, h.2.2.symm⟩

/-- Inversion for `mutate`: the result is exactly three perturbation
steps applied to the sampled base assignment, with magnitudes drawn by
`getRandomDouble`. -/
lemma mutate_eq_some {cfg : Config} {t fuel corpus np qp ns np' qp'}
    (h : mutate cfg t fuel corpus np qp = some (ns, np', qp')) :
    ∃ i1 a1 d1 i2 a2 d2 i3 a3 d3 qp1 qp2 qp3,
      getRandomDouble t fuel qp = some (d1, qp1) ∧
      getRandomDouble t fuel qp1 = some (d2, qp2) ∧
      getRandomDouble t fuel qp2 = some (d3, qp3) ∧
      ns = applyPerturb cfg.round (applyPerturb cfg.round (applyPerturb cfg.round
            (corpus.getD (t.nats np % corpus.length) []) i1 a1 d1) i2 a2 d2) i3 a3 d3 := by
  simp only [mutate] at h
  split at h
  · exact Option.noConfusion h
  · rename_i ns1 np1 qp1 h1
    split at h
    · exact Option.noConfusion h
    · rename_i ns2 np2 qp2 h2
      split at h
      · exact Option.noConfusion h
      · rename_i r3 h3
        rw [Option.some.injEq] at h
        subst h
        obtain ⟨d1, q1, hg1, he1, -, hq1⟩ := mutStep_eq_some h1
        obtain ⟨d2, q2, hg2, he2, -, hq2⟩ := mutStep_eq_some h2
        obtain ⟨d3, q3, hg3, he3, -, hq3⟩ := mutStep_eq_some h3
        subst hq1 hq2 hq3
        exact ⟨_, _, d1, _, _, d2, _, _, d3, _, _, _, hg1, hg2, hg3,
          by rw [he3, he2, he1]⟩

/-- With a zero-free tape one unit of fuel suffices: `mutate` always
returns. -/
lemma mutate_total (cfg : Config) (t : Tape) (hT : ∀ i, t.qs i ≠ 0)
    (corpus : List (List ℚ)) (np qp : Nat) :
    ∃ r, mutate cfg t 1 corpus np qp = some r := by
  simp only [mutate, mutStep, getRandomDouble_total t hT]
  exact ⟨_, rfl⟩

/-- A successful all-conditions pass: the compiled list is the whole
condition list and every condition compiles and evaluates to exactly
`1`. -/
lemma checkConditions_ok_true {ev : Evaluator} :
    ∀ {conds : List String} {ns : List ℚ} {cl : List String},
      checkConditions ev conds ns = .ok (true, cl) →
      cl = conds ∧ ∀ c ∈ conds, ∃ f, ev c = .ok f ∧ f ns = 1 := by
  intro conds
  induction conds with
  | nil =>
    intro ns cl h
    simp only [checkConditions, Except.ok.injEq, Prod.mk.injEq, true_and] at h
    exact ⟨h.symm, by simp⟩
  | cons c rest ih =>
    intro ns cl h
    simp only [checkConditions] at h
    split at h
    · exact Except.noConfusion h
    · rename_i f hf
      split at h
      · rename_i h1
        split at h
        · exact Except.noConfusion h
        · rename_i b l hrec
          rw [Except.ok.injEq, Prod.mk.injEq] at h
          obtain ⟨hb, hcl⟩ := h
          subst hb
          obtain ⟨hl, hall⟩ := ih hrec
          subst hl
          refine ⟨hcl.symm, ?_⟩
          intro d hd
          rcases List.mem_cons.mp hd with rfl | hd'
          · exact ⟨f, hf, h1⟩
          · exact hall d hd'
      · rw [Except.ok.injEq, Prod.mk.injEq] at h
        exact absurd h.1 (by simp)

/-- Converse: when every condition compiles and evaluates to `1`, the
condition test succeeds and compiles every condition once, in order. -/
lemma checkConditions_all_one {ev : Evaluator} :
    ∀ {conds : List String} {ns : List ℚ},
      (∀ c ∈ conds, ∃ f, ev c = .ok f ∧ f ns = 1) →
      checkConditions ev conds ns = .ok (true, conds) := by
  intro conds
  induction conds with
  | nil => intro ns _; rfl
  | cons c rest ih =>
    intro ns h
    obtain ⟨f, hf, h1⟩ := h c (List.mem_cons_self c rest)
    have hrest := ih (fun d hd => h d (List.mem_cons_of_mem c hd))
    simp [checkConditions, hf, h1, hrest]

/-- The condition test aborts (`exit(1)`) only with the error message of
a condition in the list. -/
lemma checkConditions_error {ev : Evaluator} :
    ∀ {conds : List String} {ns : List ℚ} {m e : String},
      checkConditions ev conds ns = .error (m, e) →
      ev e = .error m ∧ e ∈ conds := by
  intro conds
  induction conds with
  | nil => intro ns m e h; exact Except.noConfusion h
  | cons c rest ih =>
    intro ns m e h
    simp only [checkConditions] at h
    split at h
    · rename_i msg hc
      rw [Except.error.injEq, Prod.mk.injEq] at h
      obtain ⟨hm, he⟩ := h
      subst hm he
      exact ⟨hc, List.mem_cons_self _ _⟩
    · rename_i f hf
      split at h
      · split at h
        · rename_i err hrec
          rw [Except.error.injEq] at h
          obtain ⟨hm, hall⟩ := ih (h ▸ hrec)
          exact ⟨hm, List.mem_cons_of_mem c hall⟩
        · exact Except.noConfusion h
      · exact Except.noConfusion h

/-- Short-circuiting: as soon as one condition evaluates to a value other
than `1`, the candidate is rejected and the remaining conditions are not
evaluated (the result does not depend on them). -/
lemma checkConditions_shortCircuit {ev : Evaluator} {c : String} {rest : List String}
    {ns : List ℚ} {f : List ℚ → ℚ} (hf : ev c = .ok f) (hne : f ns ≠ 1) :
    checkConditions ev (c :: rest) ns = .ok (false, [c]) := by
  simp [checkConditions, hf, hne]

/-- The branchy absolute difference of `numStructToDiff` is the absolute
value of the difference. -/
lemma abs_branch_eq (a b : ℚ) : |if a > b then a - b else b - a| = |a - b| := by
  by_cases h : a > b
  · rw [if_pos h]
  · rw [if_neg h, abs_sub_comm]

/-- A successful objective evaluation: the difference is `|r1 - r2| ≥ 0`
and both expressions compiled. -/
lemma numStructToDiff_ok {ev : Evaluator} {e1 e2 : String} {ns : List ℚ} {r1 r2 d : ℚ}
    (h : numStructToDiff ev e1 e2 ns = .ok (r1, r2, d)) :
    d = |r1 - r2| ∧ 0 ≤ d ∧
      ∃ f1 f2, ev e1 = .ok f1 ∧ ev e2 = .ok f2 ∧ r1 = f1 ns ∧ r2 = f2 ns := by
  simp only [numStructToDiff] at h
  split at h
  · exact Except.noConfusion h
  · rename_i f1 h1
    split at h
    · exact Except.noConfusion h
    · rename_i f2 h2
      rw [Except.ok.injEq, Prod.mk.injEq, Prod.mk.injEq] at h
      obtain ⟨hr1, hr2, hd⟩ := h
      subst hr1 hr2
      rw [abs_branch_eq] at hd
      exact ⟨hd.symm, hd ▸ abs_nonneg _, f1, f2, h1, h2, rfl, rfl⟩

/-- The objective evaluation aborts (`exit(1)`) only with the error
message of `expr1` or `expr2`. -/
lemma numStructToDiff_error {ev : Evaluator} {e1 e2 : String} {ns : List ℚ} {m e : String}
    (h : numStructToDiff ev e1 e2 ns = .error (m, e)) :
    ev e = .error m ∧ (e = e1 ∨ e = e2) := by
  simp only [numStructToDiff] at h
  split at h
  · rename_i msg h1
    rw [Except.error.injEq, Prod.mk.injEq] at h
    obtain ⟨hm, he⟩ := h
    subst hm he
    exact ⟨h1, Or.inl rfl⟩
  · rename_i f1 h1
    split at h
    · rename_i msg h2
      rw [Except.error.injEq, Prod.mk.injEq] at h
      obtain ⟨hm, he⟩ := h
      subst hm he
      exact ⟨h2, Or.inr rfl⟩
    · exact Except.noConfusion h

/-- Forward evaluation of `step` on a condition-rejected candidate. -/
lemma step_condReject {cfg : Config} {ev : Evaluator} {t : Tape} {fuel : Nat}
    {s : FuzzState} {ns : List ℚ} {np qp : Nat} {cl : List String}
    (hm : mutate cfg t fuel s.corpus s.natPos s.qPos = some (ns, np, qp))
    (hc : checkConditions ev cfg.conditions ns = .ok (false, cl)) :
    step cfg ev t fuel s =
      .next { s with natPos := np, qPos := qp, compiles := s.compiles ++ cl } := by
  simp [step, hm, hc]

/-- Forward evaluation of `step` on a scored candidate. -/
lemma step_scored {cfg : Config} {ev : Evaluator} {t : Tape} {fuel : Nat}
    {s : FuzzState} {ns : List ℚ} {np qp : Nat} {cl : List String} {r1 r2 d : ℚ}
    (hm : mutate cfg t fuel s.corpus s.natPos s.qPos = some (ns, np, qp))
    (hc : checkConditions ev cfg.conditions ns = .ok (true, cl))
    (hd : numStructToDiff ev cfg.expr1 cfg.expr2 ns = .ok (r1, r2, d)) :
    step cfg ev t fuel s =
      if decideAccept s.best d then
        if d = 0 then
          .done ⟨s.corpus ++ [ns], s.iter + 1, some d, np, qp,
                 s.compiles ++ cl ++ [cfg.expr1, cfg.expr2]⟩ ns
        else
          .next ⟨s.corpus ++ [ns], s.iter + 1, some d, np, qp,
                 s.compiles ++ cl ++ [cfg.expr1, cfg.expr2]⟩
      else
        .next { s with iter := s.iter + 1, natPos := np, qPos := qp,
                       compiles := s.compiles ++ cl ++ [cfg.expr1, cfg.expr2] } := by
  simp only [step, hm, hc, hd]

/-- Inversion of a `next` outcome of `step`: either the candidate failed
a condition (nothing but the stream positions and the compile log
change), or it was scored and either strictly improved with a nonzero
difference (appended to the corpus, best updated) or was rejected by the
acceptance test (only `iter`, the positions and the log change). -/
lemma step_next_inv {cfg : Config} {ev : Evaluator} {t : Tape} {fuel : Nat}
    {s s' : FuzzState} (h : step cfg ev t fuel s = .next s') :
    (∃ ns np qp cl,
        mutate cfg t fuel s.corpus s.natPos s.qPos = some (ns, np, qp) ∧
        checkConditions ev cfg.conditions ns = .ok (false, cl) ∧
        s' = { s with natPos := np, qPos := qp, compiles := s.compiles ++ cl }) ∨
    (∃ ns np qp cl r1 r2 d,
        mutate cfg t fuel s.corpus s.natPos s.qPos = some (ns, np, qp) ∧
        checkConditions ev cfg.conditions ns = .ok (true, cl) ∧
        numStructToDiff ev cfg.expr1 cfg.expr2 ns = .ok (r1, r2, d) ∧
        ((decideAccept s.best d = true ∧ d ≠ 0 ∧
            s' = ⟨s.corpus ++ [ns], s.iter + 1, some d, np, qp,
                  s.compiles ++ cl ++ [cfg.expr1, cfg.expr2]⟩) ∨
         (decideAccept s.best d = false ∧
            s' = { s with iter := s.iter + 1, natPos := np, qPos := qp,
                          compiles := s.compiles ++ cl ++ [cfg.expr1, cfg.expr2] }))) := by
  simp only [step] at h
  split at h
  · exact StepResult.noConfusion h
  · rename_i ns np qp hm
    split at h
    · exact StepResult.noConfusion h
    · rename_i cl hc
      rw [StepResult.next.injEq] at h
      exact Or.inl ⟨ns, np, qp, cl, hm, hc, h.symm⟩
    · rename_i cl hc
      split at h
      · exact StepResult.noConfusion h
      · rename_i r1 r2 d hd
        split at h
        · rename_i ha
          split at h
          · exact StepResult.noConfusion h
          · rename_i hz
            rw [StepResult.next.injEq] at h
            exact Or.inr ⟨ns, np, qp, cl, r1, r2, d, hm, hc, hd,
              Or.inl ⟨ha, hz, h.symm⟩⟩
        · rename_i ha
          rw [StepResult.next.injEq] at h
          exact Or.inr ⟨ns, np, qp, cl, r1, r2, d, hm, hc, hd,
            Or.inr ⟨Bool.not_eq_true _ ▸ (by simpa using ha), h.symm⟩⟩

/-- Inversion of a `done` outcome of `step`: the reported candidate
passed all conditions, was accepted, and its difference is exactly
zero. -/
lemma step_done_inv {cfg : Config} {ev : Evaluator} {t : Tape} {fuel : Nat}
    {s s' : FuzzState} {ns : List ℚ} (h : step cfg ev t fuel s = .done s' ns) :
    ∃ np qp cl r1 r2,
        mutate cfg t fuel s.corpus s.natPos s.qPos = some (ns, np, qp) ∧
        checkConditions ev cfg.conditions ns = .ok (true, cl) ∧
        numStructToDiff ev cfg.expr1 cfg.expr2 ns = .ok (r1, r2, 0) ∧
        decideAccept s.best 0 = true ∧
        s' = ⟨s.corpus ++ [ns], s.iter + 1, some 0, np, qp,
              s.compiles ++ cl ++ [cfg.expr1, cfg.expr2]⟩ := by
  simp only [step] at h
  split at h
  · exact StepResult.noConfusion h
  · rename_i ns0 np qp hm
    split at h
    · exact StepResult.noConfusion h
    · exact StepResult.noConfusion h
    · rename_i cl hc
      split at h
      · exact StepResult.noConfusion h
      · rename_i r1 r2 d hd
        split at h
        · rename_i ha
          split at h
          · rename_i hz
            rw [StepResult.done.injEq] at h
            obtain ⟨hs', hns⟩ := h
            subst hns hz
            exact ⟨np, qp, cl, r1, r2, hm, hc, hd, ha, hs'.symm⟩
          · exact StepResult.noConfusion h
        · exact StepResult.noConfusion h

/-- Inversion of a `fail` outcome of `step`: the process aborts only from
within `calc`, on the compile error of one of the conditions, `expr1` or
`expr2`. -/
lemma step_fail_inv {cfg : Config} {ev : Evaluator} {t : Tape} {fuel : Nat}
    {s : FuzzState} {m e : String} (h : step cfg ev t fuel s = .fail m e) :
    ev e = .error m ∧ (e ∈ cfg.conditions ∨ e = cfg.expr1 ∨ e = cfg.expr2) := by
  simp only [step] at h
  split at h
  · exact StepResult.noConfusion h
  · rename_i ns np qp hm
    split at h
    · rename_i me hc
      rw [StepResult.fail.injEq] at h
      obtain ⟨hm1, hm2⟩ := h
      subst hm1 hm2
      obtain ⟨h1, h2⟩ := checkConditions_error hc
      exact ⟨h1, Or.inl h2⟩
    · exact StepResult.noConfusion h
    · rename_i cl hc
      split at h
      · rename_i me hd
        rw [StepResult.fail.injEq] at h
        obtain ⟨hm1, hm2⟩ := h
        subst hm1 hm2
        obtain ⟨h1, h2⟩ := numStructToDiff_error hd
        exact ⟨h1, Or.inr h2⟩
      · rename_i r1 r2 d hd
        split at h
        · split at h
          · exact StepResult.noConfusion h
          · exact StepResult.noConfusion h
        · exact StepResult.noConfusion h

/-- Generic invariant preservation along a bounded run: a predicate
preserved by `next` and `done` steps holds at every state the run
reaches. -/
lemma runFuzz_inv {cfg : Config} {ev : Evaluator} {t : Tape} {fuel : Nat}
    (P : FuzzState → Prop)
    (hnext : ∀ s s', step cfg ev t fuel s = .next s' → P s → P s')
    (hdone : ∀ s s' ns, step cfg ev t fuel s = .done s' ns → P s → P s') :
    ∀ n s0 s, P s0 → (runFuzz cfg ev t fuel n s0).state? = some s → P s := by
  intro n
  induction n with
  | zero =>
    intro s0 s h0 hr
    simp only [runFuzz, RunResult.state?, Option.some.injEq] at hr
    exact hr ▸ h0
  | succ n ih =>
    intro s0 s h0 hr
    rw [runFuzz] at hr
    cases hs : step cfg ev t fuel s0 with
    | next s1 =>
      simp only [hs] at hr
      exact ih s1 s (hnext s0 s1 hs h0) hr
    | done s1 ns =>
      simp only [hs, RunResult.state?, Option.some.injEq] at hr
      exact hr ▸ hdone s0 s1 ns hs h0
    | fail m e =>
      simp only [hs, RunResult.state?] at hr
      exact Option.noConfusion hr
    | outOfFuel =>
      simp only [hs, RunResult.state?] at hr
      exact Option.noConfusion hr

/-- Corpus bookkeeping of a `next` step: the old corpus is a prefix of
the new one, which is longer by one exactly when the candidate was
accepted. -/
lemma step_next_corpus {cfg : Config} {ev : Evaluator} {t : Tape} {fuel : Nat}
    {s s' : FuzzState} (h : step cfg ev t fuel s = .next s') :
    (∃ tl, s'.corpus = s.corpus ++ tl) ∧
    s'.corpus.length = s.corpus.length +
      (if stepAccepted cfg ev t fuel s then 1 else 0) := by
  rcases step_next_inv h with ⟨ns, np, qp, cl, hm, hc, rfl⟩ |
    ⟨ns, np, qp, cl, r1, r2, d, hm, hc, hd, hcase⟩
  · exact ⟨⟨[], (List.append_nil _).symm⟩, by simp [stepAccepted, hm, hc]⟩
  · rcases hcase with ⟨ha, hz, rfl⟩ | ⟨ha, rfl⟩
    · exact ⟨⟨[ns], rfl⟩, by simp [stepAccepted, hm, hc, hd, ha]⟩
    · exact ⟨⟨[], (List.append_nil _).symm⟩, by simp [stepAccepted, hm, hc, hd, ha]⟩

/-- Corpus bookkeeping of a `done` step: the reported candidate is
appended and counted as accepted. -/
lemma step_done_corpus {cfg : Config} {ev : Evaluator} {t : Tape} {fuel : Nat}
    {s s' : FuzzState} {ns : List ℚ} (h : step cfg ev t fuel s = .done s' ns) :
    s'.corpus = s.corpus ++ [ns] ∧ stepAccepted cfg ev t fuel s = true := by
  obtain ⟨np, qp, cl, r1, r2, hm, hc, hd, ha, rfl⟩ := step_done_inv h
  exact ⟨rfl, by simp [stepAccepted, hm, hc, hd, ha]⟩

/-- Along any bounded run, the corpus only ever grows by appending, and
its length grows by exactly the number of accepted candidates. -/
lemma runFuzz_corpus {cfg : Config} {ev : Evaluator} {t : Tape} {fuel : Nat} :
    ∀ (n : Nat) (s0 s : FuzzState),
      (runFuzz cfg ev t fuel n s0).state? = some s →
      s.corpus.length = s0.corpus.length + countAccepted cfg ev t fuel n s0 ∧
      ∃ tl, s.corpus = s0.corpus ++ tl := by
  intro n
  induction n with
  | zero =>
    intro s0 s hr
    simp only [runFuzz, RunResult.state?, Option.some.injEq] at hr
    subst hr
    exact ⟨by simp [countAccepted], [], by simp⟩
  | succ n ih =>
    intro s0 s hr
    rw [runFuzz] at hr
    cases hs : step cfg ev t fuel s0 with
    | next s1 =>
      simp only [hs] at hr
      obtain ⟨hlen, tl, htl⟩ := ih s1 s hr
      obtain ⟨⟨tl0, htl0⟩, hlen0⟩ := step_next_corpus hs
      refine ⟨?_, tl0 ++ tl, by rw [htl, htl0, List.append_assoc]⟩
      rw [countAccepted]
      simp only [hs]
      omega
    | done s1 ns =>
      simp only [hs, RunResult.state?, Option.some.injEq] at hr
      subst hr
      obtain ⟨hcorp, hacc⟩ := step_done_corpus hs
      rw [countAccepted]
      simp only [hs, hacc, if_true]
      exact ⟨by rw [hcorp]; simp, [ns], hcorp⟩
    | fail m e =>
      simp only [hs, RunResult.state?] at hr
      exact Option.noConfusion hr
    | outOfFuel =>
      simp only [hs, RunResult.state?] at hr
      exact Option.noConfusion hr

/-- The best difference evolves only by strict improvement: across any
`next` or `done` step it is unchanged, set for the first time, or
strictly decreased. -/
lemma step_best {cfg : Config} {ev : Evaluator} {t : Tape} {fuel : Nat}
    {s s' : FuzzState}
    (h : step cfg ev t fuel s = .next s' ∨ ∃ ns, step cfg ev t fuel s = .done s' ns) :
    s'.best = s.best ∨
    (s.best = none ∧ ∃ d, s'.best = some d) ∨
    (∃ d d', s.best = some d ∧ s'.best = some d' ∧ d' < d) := by
  rcases h with h | ⟨ns, h⟩
  · rcases step_next_inv h with ⟨_, _, _, _, _, _, rfl⟩ |
      ⟨ns, np, qp, cl, r1, r2, d, hm, hc, hd, hcase⟩
    · exact Or.inl rfl
    · rcases hcase with ⟨ha, hz, rfl⟩ | ⟨ha, rfl⟩
      · rcases (decideAccept_iff s.best d).mp ha with hnone | ⟨v, hv, hlt⟩
        · exact Or.inr (Or.inl ⟨hnone, d, rfl⟩)
        · exact Or.inr (Or.inr ⟨v, d, hv, rfl, hlt⟩)
      · exact Or.inl rfl
  · obtain ⟨np, qp, cl, r1, r2, hm, hc, hd, ha, rfl⟩ := step_done_inv h
    rcases (decideAccept_iff s.best 0).mp ha with hnone | ⟨v, hv, hlt⟩
    · exact Or.inr (Or.inl ⟨hnone, 0, rfl⟩)
    · exact Or.inr (Or.inr ⟨v, 0, hv, rfl, hlt⟩)

/-- Truncation toward zero always produces an integral rational. -/
lemma truncQ_den (q : ℚ) : (truncQ q).den = 1 := by
  unfold truncQ
  split
  · exact Rat.den_intCast _
  · exact Rat.den_intCast _

/-- In round mode, the slot just mutated holds an integral value after
the perturbation step. -/
lemma applyPerturb_round_slot (ns : List ℚ) (i : Nat) (aa : Bool) (d : ℚ) :
    ((applyPerturb true ns i aa d).getD i 0).den = 1 := by
  by_cases hi : i < ns.length
  · rw [applyPerturb, List.getD_eq_getElem?_getD, List.getElem?_set_self]
    · exact truncQ_den _
    · exact hi
  · rw [applyPerturb, List.getD_eq_default]
    · rfl
    · rw [List.length_set]; exact Nat.le_of_not_lt hi

/-- In round mode a perturbation step keeps an all-integral assignment
all-integral. -/
lemma allIntegral_applyPerturb {ns : List ℚ} {i : Nat} {aa : Bool} {d : ℚ}
    (h : allIntegral ns) : allIntegral (applyPerturb true ns i aa d) := by
  intro q hq
  simp only [applyPerturb, if_true] at hq
  rcases List.mem_or_eq_of_mem_set hq with hq' | rfl
  · exact h q hq'
  · exact truncQ_den _

/-- In round mode, mutating a base sampled from an all-integral corpus
yields an all-integral assignment. -/
lemma mutate_allIntegral {cfg : Config} {t : Tape} {fuel : Nat}
    {corpus : List (List ℚ)} {np qp : Nat} {ns : List ℚ} {np' qp' : Nat}
    (hrd : cfg.round = true)
    (hcorp : ∀ a ∈ corpus, allIntegral a)
    (h : mutate cfg t fuel corpus np qp = some (ns, np', qp')) : allIntegral ns := by
  obtain ⟨i1, a1, d1, i2, a2, d2, i3, a3, d3, q1, q2, q3, -, -, -, hns⟩ := mutate_eq_some h
  have hbase : allIntegral (corpus.getD (t.nats np % corpus.length) []) := by
    by_cases hlt : t.nats np % corpus.length < corpus.length
    · rw [List.getD_eq_getElem?_getD, List.getElem?_eq_getElem hlt]
      exact hcorp _ (List.getElem_mem hlt)
    · rw [List.getD_eq_default _ _ (Nat.le_of_not_lt hlt)]
      intro q hq
      exact absurd hq (List.not_mem_nil q)
  rw [hns, hrd]
  exact allIntegral_applyPerturb (allIntegral_applyPerturb (allIntegral_applyPerturb hbase))

/-- In round mode every assignment in the corpus stays all-integral
across a step. -/
lemma step_preserves_integral {cfg : Config} {ev : Evaluator} {t : Tape} {fuel : Nat}
    {s s' : FuzzState} (hrd : cfg.round = true)
    (hP : ∀ a ∈ s.corpus, allIntegral a)
    (h : step cfg ev t fuel s = .next s' ∨ ∃ ns, step cfg ev t fuel s = .done s' ns) :
    ∀ a ∈ s'.corpus, allIntegral a := by
  rcases h with h | ⟨ns, h⟩
  · rcases step_next_inv h with ⟨_, _, _, _, hm, hc, rfl⟩ |
      ⟨ns, np, qp, cl, r1, r2, d, hm, hc, hd, hcase⟩
    · exact hP
    · have hns := mutate_allIntegral hrd hP hm
      rcases hcase with ⟨ha, hz, rfl⟩ | ⟨ha, rfl⟩
      · intro a ha'
        rcases List.mem_append.mp ha' with h1 | h2
        · exact hP a h1
        · rw [List.mem_singleton.mp h2]; exact hns
      · exact hP
  · obtain ⟨np, qp, cl, r1, r2, hm, hc, hd, ha, rfl⟩ := step_done_inv h
    have hns := mutate_allIntegral hrd hP hm
    intro a ha'
    rcases List.mem_append.mp ha' with h1 | h2
    · exact hP a h1
    · rw [List.mem_singleton.mp h2]; exact hns

/-- In round mode, every assignment in the corpus of any reachable state
is all-integral (the seed is all zeros). -/
lemma runFuzz_integral {cfg : Config} {ev : Evaluator} {t : Tape} {fuel : Nat}
    (hrd : cfg.round = true) (n : Nat) (s : FuzzState)
    (hr : (runFuzz cfg ev t fuel n (initState cfg)).state? = some s) :
    ∀ a ∈ s.corpus, allIntegral a := by
  refine runFuzz_inv (fun s => ∀ a ∈ s.corpus, allIntegral a)
    (fun s s' hs hP => step_preserves_integral hrd hP (Or.inl hs))
    (fun s s' ns hs hP => step_preserves_integral hrd hP (Or.inr ⟨ns, hs⟩))
    n (initState cfg) s ?_ hr
  intro a ha
  rw [List.mem_singleton.mp ha]
  intro q hq
  rw [List.eq_of_mem_replicate hq]
  rfl

/-- Across any `next` or `done` step, a set best difference is always
non-negative. -/
lemma step_preserves_bestNonneg {cfg : Config} {ev : Evaluator} {t : Tape} {fuel : Nat}
    {s s' : FuzzState}
    (hP : s.best = none ∨ ∃ d, s.best = some d ∧ 0 ≤ d)
    (h : step cfg ev t fuel s = .next s' ∨ ∃ ns, step cfg ev t fuel s = .done s' ns) :
    s'.best = none ∨ ∃ d, s'.best = some d ∧ 0 ≤ d := by
  rcases h with h | ⟨ns, h⟩
  · rcases step_next_inv h with ⟨_, _, _, _, _, _, rfl⟩ |
      ⟨ns, np, qp, cl, r1, r2, d, hm, hc, hd, hcase⟩
    · exact hP
    · rcases hcase with ⟨ha, hz, rfl⟩ | ⟨ha, rfl⟩
      · exact Or.inr ⟨d, rfl, (numStructToDiff_ok hd).2.1⟩
      · exact hP
  · obtain ⟨np, qp, cl, r1, r2, hm, hc, hd, ha, rfl⟩ := step_done_inv h
    exact Or.inr ⟨0, rfl, le_refl 0⟩

/-- The best difference of any reachable state is unset or
non-negative. -/
lemma runFuzz_bestNonneg {cfg : Config} {ev : Evaluator} {t : Tape} {fuel : Nat}
    (n : Nat) (s : FuzzState)
    (hr : (runFuzz cfg ev t fuel n (initState cfg)).state? = some s) :
    s.best = none ∨ ∃ d, s.best = some d ∧ 0 ≤ d :=
  runFuzz_inv (fun s => s.best = none ∨ ∃ d, s.best = some d ∧ 0 ≤ d)
    (fun s s' hs hP => step_preserves_bestNonneg hP (Or.inl hs))
    (fun s s' ns hs hP => step_preserves_bestNonneg hP (Or.inr ⟨ns, hs⟩))
    n (initState cfg) s (Or.inl rfl) hr

/-! ### Claim theorems -/

/-- C1: a candidate that passed all conditions is accepted iff the best
difference is still unset or the candidate's difference is strictly
smaller (ties rejected); consequently across any `next` or `done` step
the best difference is unchanged, set for the first time, or strictly
decreased — never updated to an equal or larger value. -/
theorem claim1_accept_iff_strict_decrease :
    (∀ (b : Option ℚ) (d : ℚ),
        decideAccept b d = true ↔ (b = none ∨ ∃ v, b = some v ∧ d < v)) ∧
    (∀ (cfg : Config) (ev : Evaluator) (t : Tape) (fuel : Nat) (s s' : FuzzState),
        (step cfg ev t fuel s = .next s' ∨ ∃ ns, step cfg ev t fuel s = .done s' ns) →
        s'.best = s.best ∨
        (s.best = none ∧ ∃ d, s'.best = some d) ∨
        (∃ d d', s.best = some d ∧ s'.best = some d' ∧ d' < d)) :=
  ⟨decideAccept_iff, fun _ _ _ _ _ _ h => step_best h⟩

/-- Witness for C1 at a concrete accepted step of the
immediate-termination scenario. -/
theorem claim1_witness :
    decideAccept none 5 = true ∧
    (s21.best = (initState cfg8).best ∨
     ((initState cfg8).best = none ∧ ∃ d, s21.best = some d) ∨
     (∃ d d', (initState cfg8).best = some d ∧ s21.best = some d' ∧ d' < d)) :=
  ⟨(claim1_accept_iff_strict_decrease.1 none 5).mpr (Or.inl rfl),
   claim1_accept_iff_strict_decrease.2 cfg8 evA tape7 1 (initState cfg8) s21
     (Or.inl (by with_unfolding_all rfl))⟩

/-- C2: the loop returns exactly on an accepted candidate whose
difference is exactly `0`: a `done` outcome records a best difference of
`0` for an accepted (appended) candidate; a scored candidate terminates
the loop iff it is accepted with difference `0`, and otherwise — as for
any condition-rejected candidate — control goes back to sampling via a
`next` outcome. -/
theorem claim2_terminates_iff_zero_diff :
    (∀ (cfg : Config) (ev : Evaluator) (t : Tape) (fuel : Nat) (s s' : FuzzState)
        (ns : List ℚ),
        step cfg ev t fuel s = .done s' ns →
        decideAccept s.best 0 = true ∧ s'.best = some 0 ∧ s'.corpus = s.corpus ++ [ns]) ∧
    (∀ (cfg : Config) (ev : Evaluator) (t : Tape) (fuel : Nat) (s : FuzzState)
        (ns : List ℚ) (np qp : Nat) (cl : List String) (r1 r2 d : ℚ),
        mutate cfg t fuel s.corpus s.natPos s.qPos = some (ns, np, qp) →
        checkConditions ev cfg.conditions ns = .ok (true, cl) →
        numStructToDiff ev cfg.expr1 cfg.expr2 ns = .ok (r1, r2, d) →
        (((∃ s', step cfg ev t fuel s = .done s' ns) ↔
            (decideAccept s.best d = true ∧ d = 0)) ∧
         (¬(decideAccept s.best d = true ∧ d = 0) →
            ∃ s', step cfg ev t fuel s = .next s'))) ∧
    (∀ (cfg : Config) (ev : Evaluator) (t : Tape) (fuel : Nat) (s : FuzzState)
        (ns : List ℚ) (np qp : Nat) (cl : List String),
        mutate cfg t fuel s.corpus s.natPos s.qPos = some (ns, np, qp) →
        checkConditions ev cfg.conditions ns = .ok (false, cl) →
        ∃ s', step cfg ev t fuel s = .next s' ∧ s'.corpus = s.corpus ∧ s'.best = s.best) := by
  refine ⟨?_, ?_, ?_⟩
  · intro cfg ev t fuel s s' ns h
    obtain ⟨np, qp, cl, r1, r2, hm, hc, hd, ha, rfl⟩ := step_done_inv h
    exact ⟨ha, rfl, rfl⟩
  · intro cfg ev t fuel s ns np qp cl r1 r2 d hm hc hd
    have hstep := step_scored hm hc hd
    constructor
    · constructor
      · rintro ⟨s', hs'⟩
        obtain ⟨np', qp', cl', r1', r2', hm', hc', hd', ha', -⟩ := step_done_inv hs'
        rw [hd] at hd'
        rw [Except.ok.injEq, Prod.mk.injEq, Prod.mk.injEq] at hd'
        obtain ⟨-, -, hd0⟩ := hd'
        subst hd0
        exact ⟨ha', rfl⟩
      · rintro ⟨ha, rfl⟩
        rw [ha] at hstep
        simp only [if_true] at hstep
        exact ⟨_, hstep⟩
    · intro hno
      by_cases ha : decideAccept s.best d = true
      · by_cases hz : d = 0
        · exact absurd ⟨ha, hz⟩ hno
        · rw [ha] at hstep
          simp only [if_true] at hstep
          rw [if_neg hz] at hstep
          exact ⟨_, hstep⟩
      · rw [Bool.not_eq_true] at ha
        rw [ha] at hstep
        simp only [Bool.false_eq_true, if_false] at hstep
        exact ⟨_, hstep⟩
  · intro cfg ev t fuel s ns np qp cl hm hc
    exact ⟨_, step_condReject hm hc, rfl, rfl⟩

/-- Witness for C2 at a concrete terminating step: with all tape draws
equal to `1/2`, the first candidate of the immediate-termination
scenario truncates to `[0]`, its difference is `0`, and the loop
returns. -/
theorem claim2_witness :
    decideAccept (initState cfg8).best 0 = true ∧ sDone.best = some 0 ∧
      sDone.corpus = (initState cfg8).corpus ++ [[0]] :=
  claim2_terminates_iff_zero_diff.1 cfg8 evA tapeHalf 1 (initState cfg8) sDone [0]
    (by with_unfolding_all rfl)

/-- C3: the corpus starts as exactly one all-zero assignment, only ever
grows by appending, grows by exactly one element per accepted candidate,
is never empty, and after `k` acceptances has size `1 + k`. -/
theorem claim3_corpus_invariants :
    (∀ cfg : Config, (initState cfg).corpus = [List.replicate cfg.NumNumbers 0]) ∧
    (∀ (cfg : Config) (ev : Evaluator) (t : Tape) (fuel : Nat) (s s' : FuzzState),
        (step cfg ev t fuel s = .next s' ∨ ∃ ns, step cfg ev t fuel s = .done s' ns) →
        (∃ tl, s'.corpus = s.corpus ++ tl) ∧
        s'.corpus.length = s.corpus.length +
          (if stepAccepted cfg ev t fuel s then 1 else 0)) ∧
    (∀ (cfg : Config) (ev : Evaluator) (t : Tape) (fuel n : Nat) (s : FuzzState),
        (runFuzz cfg ev t fuel n (initState cfg)).state? = some s →
        s.corpus ≠ [] ∧
        s.corpus.length = 1 + countAccepted cfg ev t fuel n (initState cfg)) := by
  refine ⟨fun _ => rfl, ?_, ?_⟩
  · intro cfg ev t fuel s s' h
    rcases h with h | ⟨ns, h⟩
    · exact step_next_corpus h
    · obtain ⟨hcorp, hacc⟩ := step_done_corpus h
      rw [hcorp, hacc]
      exact ⟨⟨[ns], rfl⟩, by simp⟩
  · intro cfg ev t fuel n s hr
    obtain ⟨hlen, tl, htl⟩ := runFuzz_corpus n (initState cfg) s hr
    constructor
    · rw [htl]
      simp [initState]
    · rw [hlen]
      rfl

/-- Witness for C3 after two concrete loop iterations (one acceptance,
one tie rejection). -/
theorem claim3_witness :
    s21b.corpus ≠ [] ∧
    s21b.corpus.length = 1 + countAccepted cfg8 evA tape7 1 2 (initState cfg8) :=
  claim3_corpus_invariants.2.2 cfg8 evA tape7 1 2 s21b (by with_unfolding_all rfl)

/-- C4: a candidate passes iff every condition compiles and evaluates to
exactly `1`, conditions are checked in order with short-circuit at the
first value other than `1` (later conditions are not evaluated), and a
condition-rejected candidate leaves `iter`, the corpus and the best
difference untouched — its difference is never computed. -/
theorem claim4_condition_filter :
    (∀ (ev : Evaluator) (conds : List String) (ns : List ℚ) (cl : List String),
        checkConditions ev conds ns = .ok (true, cl) →
        cl = conds ∧ ∀ c ∈ conds, ∃ f, ev c = .ok f ∧ f ns = 1) ∧
    (∀ (ev : Evaluator) (conds : List String) (ns : List ℚ),
        (∀ c ∈ conds, ∃ f, ev c = .ok f ∧ f ns = 1) →
        checkConditions ev conds ns = .ok (true, conds)) ∧
    (∀ (ev : Evaluator) (c : String) (rest : List String) (ns : List ℚ)
        (f : List ℚ → ℚ),
        ev c = .ok f → f ns ≠ 1 →
        checkConditions ev (c :: rest) ns = .ok (false, [c])) ∧
    (∀ (cfg : Config) (ev : Evaluator) (t : Tape) (fuel : Nat) (s : FuzzState)
        (ns : List ℚ) (np qp : Nat) (cl : List String),
        mutate cfg t fuel s.corpus s.natPos s.qPos = some (ns, np, qp) →
        checkConditions ev cfg.conditions ns = .ok (false, cl) →
        ∃ s', step cfg ev t fuel s = .next s' ∧
          s'.iter = s.iter ∧ s'.corpus = s.corpus ∧ s'.best = s.best) := by
  refine ⟨fun _ _ _ _ h => checkConditions_ok_true h,
          fun _ _ _ h => checkConditions_all_one h,
          fun _ _ _ _ _ hf hne => checkConditions_shortCircuit hf hne, ?_⟩
  intro cfg ev t fuel s ns np qp cl hm hc
  exact ⟨_, step_condReject hm hc, rfl, rfl, rfl⟩

/-- Witness for C4: the failing condition `"zero"` short-circuits, so the
un-compilable condition text `"x"` behind it is never compiled. -/
theorem claim4_witness :
    checkConditions evB ["zero", "x"] [0] = .ok (false, ["zero"]) :=
  claim4_condition_filter.2.2.1 evB "zero" ["x"] [0] (fun _ => 0)
    (by with_unfolding_all rfl) (by simp)

/-- Counterexample for C5: `std::uniform_real_distribution<double>(-100,
100)` draws from the half-open interval `[-100, 100)`, so a draw of
exactly `-100` respects the distribution's contract, is nonzero, is
accepted by `getRandomDouble` without a redraw, and is applied as a
perturbation magnitude — yet it does not lie in the open interval
`(-100, 100)` the claim states. -/
theorem claim5_counterexample :
    (-100 ≤ tapeNeg100.qs 0 ∧ tapeNeg100.qs 0 < 100) ∧
    getRandomDouble tapeNeg100 1 0 = some (-100, 1) ∧
    ¬(-100 < tapeNeg100.qs 0 ∧ tapeNeg100.qs 0 < 100) ∧
    mutate cfg8 tapeNeg100 1 [[0]] 0 0 = some ([-300], 7, 3) := by
  refine ⟨⟨by norm_num [tapeNeg100], by norm_num [tapeNeg100]⟩,
          by with_unfolding_all rfl, ?_, by with_unfolding_all rfl⟩
  intro h
  exact absurd h.1 (by norm_num [tapeNeg100])

/-- C5 (amended): for every sampled base assignment and every outcome of
the random source, `mutate` performs exactly 3 perturbation steps, each
picking one variable index and add-or-subtract and applying a magnitude
that is never exactly zero (a draw of exactly zero is redrawn) and —
under the distribution's contract — lies in the half-open interval
`[-100, 100)`; `mutate` needs no retry of its own and always returns
whenever a nonzero draw is available. -/
theorem claim5_amended_mutation :
    (∀ (t : Tape) (fuel qp : Nat) (v : ℚ) (qp' : Nat),
        getRandomDouble t fuel qp = some (v, qp') → v ≠ 0) ∧
    (∀ t : Tape, (∀ i, -100 ≤ t.qs i ∧ t.qs i < 100) →
      ∀ (fuel qp : Nat) (v : ℚ) (qp' : Nat),
        getRandomDouble t fuel qp = some (v, qp') → -100 ≤ v ∧ v < 100) ∧
    (∀ (cfg : Config) (t : Tape) (fuel : Nat) (corpus : List (List ℚ))
        (np qp : Nat) (ns : List ℚ) (np' qp' : Nat),
        mutate cfg t fuel corpus np qp = some (ns, np', qp') →
        ∃ i1 a1 d1 i2 a2 d2 i3 a3 d3,
          d1 ≠ 0 ∧ d2 ≠ 0 ∧ d3 ≠ 0 ∧
          ((∀ i, -100 ≤ t.qs i ∧ t.qs i < 100) →
            (-100 ≤ d1 ∧ d1 < 100) ∧ (-100 ≤ d2 ∧ d2 < 100) ∧
            (-100 ≤ d3 ∧ d3 < 100)) ∧
          ns = applyPerturb cfg.round (applyPerturb cfg.round (applyPerturb cfg.round
                (corpus.getD (t.nats np % corpus.length) []) i1 a1 d1) i2 a2 d2)
                i3 a3 d3) ∧
    (∀ (cfg : Config) (t : Tape), (∀ i, t.qs i ≠ 0) →
      ∀ (corpus : List (List ℚ)) (np qp : Nat),
        ∃ r, mutate cfg t 1 corpus np qp = some r) := by
  refine ⟨fun t fuel qp v qp' h => getRandomDouble_ne_zero t fuel qp v qp' h,
          fun t hT fuel qp v qp' h => getRandomDouble_range t hT fuel qp v qp' h,
          ?_,
          fun cfg t hT corpus np qp => mutate_total cfg t hT corpus np qp⟩
  intro cfg t fuel corpus np qp ns np' qp' h
  obtain ⟨i1, a1, d1, i2, a2, d2, i3, a3, d3, q1, q2, q3, hg1, hg2, hg3, hns⟩ :=
    mutate_eq_some h
  exact ⟨i1, a1, d1, i2, a2, d2, i3, a3, d3,
    getRandomDouble_ne_zero t fuel _ _ _ hg1,
    getRandomDouble_ne_zero t fuel _ _ _ hg2,
    getRandomDouble_ne_zero t fuel _ _ _ hg3,
    fun hT => ⟨getRandomDouble_range t hT fuel _ _ _ hg1,
               getRandomDouble_range t hT fuel _ _ _ hg2,
               getRandomDouble_range t hT fuel _ _ _ hg3⟩,
    hns⟩

/-- Witness for C5 (amended): a concrete nonzero draw and a concrete
total `mutate` call. -/
theorem claim5_amended_witness :
    (7 : ℚ) ≠ 0 ∧ ∃ r, mutate cfg8 tape7 1 [[0]] 0 0 = some r :=
  ⟨claim5_amended_mutation.1 tape7 1 0 7 1 (by with_unfolding_all rfl),
   claim5_amended_mutation.2.2.2 cfg8 tape7 (fun i => by norm_num [tape7]) [[0]] 0 0⟩

/-- C6: with round mode on, each perturbation step leaves the mutated
slot integral, mutating a base from an all-integral corpus produces an
all-integral assignment, and — since the seed is all zeros — every
assignment ever stored in the corpus of a reachable state is
all-integral. -/
theorem claim6_round_mode_integral :
    (∀ (ns : List ℚ) (i : Nat) (aa : Bool) (d : ℚ),
        ((applyPerturb true ns i aa d).getD i 0).den = 1) ∧
    (∀ (cfg : Config) (t : Tape) (fuel : Nat) (corpus : List (List ℚ))
        (np qp : Nat) (ns : List ℚ) (np' qp' : Nat), cfg.round = true →
        (∀ a ∈ corpus, allIntegral a) →
        mutate cfg t fuel corpus np qp = some (ns, np', qp') → allIntegral ns) ∧
    (∀ (cfg : Config) (ev : Evaluator) (t : Tape) (fuel n : Nat) (s : FuzzState),
        cfg.round = true →
        (runFuzz cfg ev t fuel n (initState cfg)).state? = some s →
        ∀ a ∈ s.corpus, allIntegral a) :=
  ⟨applyPerturb_round_slot,
   fun _ _ _ _ _ _ _ _ _ hrd hcorp h => mutate_allIntegral hrd hcorp h,
   fun _ _ _ _ n s hrd hr => runFuzz_integral hrd n s hr⟩

/-- Witness for C6: the assignment `[21]` accepted in the concrete run is
integral. -/
theorem claim6_witness : allIntegral [21] :=
  claim6_round_mode_integral.2.2 cfg8 evA tape7 1 2 s21b rfl
    (by with_unfolding_all rfl) [21] (by simp [s21b])

/-- Counterexample for C7: expressions are not compiled once and reused —
in a two-iteration run `expr1 = "a"` is compiled twice (once per
objective evaluation); and a compile failure does not abort before the
search loop starts — with an un-compilable `expr1` guarded by an
always-false condition, three full loop iterations run without any exit,
and the failing expression is never even compiled. -/
theorem claim7_counterexample :
    (runFuzz cfg8 evA tape7 1 2 (initState cfg8)).state?.map FuzzState.compiles =
      some ["a", "0", "a", "0"] ∧
    cfg8.expr1 = "a" ∧
    evB "x" = .error "compile error" ∧ cfgBad.expr1 = "x" ∧
    (runFuzz cfgBad evB tape7 1 3 (initState cfgBad)).state?.map FuzzState.compiles =
      some ["zero", "zero", "zero"] :=
  ⟨by with_unfolding_all rfl, rfl, by with_unfolding_all rfl, rfl,
   by with_unfolding_all rfl⟩

/-- C7 (amended): a `fail` exit of the loop carries exactly the
evaluator's error message and the offending expression text, which is
one of the conditions, `expr1` or `expr2`; and every scoring iteration
recompiles `expr1` and `expr2` (appends them to the compile log) rather
than reusing a compiled form — a compile failure therefore surfaces at
the first evaluation of the offending expression inside the loop, not
before the loop starts. -/
theorem claim7_amended_compile :
    (∀ (cfg : Config) (ev : Evaluator) (t : Tape) (fuel : Nat) (s : FuzzState)
        (m e : String),
        step cfg ev t fuel s = .fail m e →
        ev e = .error m ∧ (e ∈ cfg.conditions ∨ e = cfg.expr1 ∨ e = cfg.expr2)) ∧
    (∀ (cfg : Config) (ev : Evaluator) (t : Tape) (fuel : Nat) (s s' : FuzzState),
        step cfg ev t fuel s = .next s' → s'.iter = s.iter + 1 →
        ∃ cl, s'.compiles = s.compiles ++ cl ++ [cfg.expr1, cfg.expr2]) ∧
    (∀ (cfg : Config) (ev : Evaluator) (t : Tape) (fuel : Nat) (s s' : FuzzState)
        (ns : List ℚ),
        step cfg ev t fuel s = .done s' ns →
        ∃ cl, s'.compiles = s.compiles ++ cl ++ [cfg.expr1, cfg.expr2]) := by
  refine ⟨fun _ _ _ _ _ _ _ h => step_fail_inv h, ?_, ?_⟩
  · intro cfg ev t fuel s s' h hiter
    rcases step_next_inv h with ⟨ns, np, qp, cl, hm, hc, rfl⟩ |
      ⟨ns, np, qp, cl, r1, r2, d, hm, hc, hd, hcase⟩
    · exact absurd hiter (Nat.succ_ne_self s.iter).symm
    · rcases hcase with ⟨ha, hz, rfl⟩ | ⟨ha, rfl⟩
      · exact ⟨cl, rfl⟩
      · exact ⟨cl, rfl⟩
  · intro cfg ev t fuel s s' ns h
    obtain ⟨np, qp, cl, r1, r2, hm, hc, hd, ha, rfl⟩ := step_done_inv h
    exact ⟨cl, rfl⟩

/-- Witness for C7 (amended): the concrete failing step aborts with the
error of the un-compilable `expr1 = "x"`. -/
theorem claim7_amended_witness :
    evB "x" = .error "compile error" ∧
    ("x" ∈ cfgFail.conditions ∨ "x" = cfgFail.expr1 ∨ "x" = cfgFail.expr2) :=
  claim7_amended_compile.1 cfgFail evB tape7 1 (initState cfgFail) "compile error" "x"
    (by with_unfolding_all rfl)

/-- Counterexample for C8: in the immediate-termination scenario the
candidate evaluated on the first cycle is a mutant of the seed, not the
seed itself — with all tape draws equal to `7` the first cycle evaluates
`[21]`, yields difference `21 ≠ 0`, and the loop does not terminate on
the first cycle. -/
theorem claim8_counterexample :
    step cfg8 evA tape7 1 (initState cfg8) = .next s21 ∧
    s21.best = some 21 ∧ (21 : ℚ) ≠ 0 :=
  ⟨by with_unfolding_all rfl, rfl, by norm_num⟩

/-- C8 (amended): in the scenario `N = 1`, `expr1 = "a"`, `expr2 = "0"`,
no conditions, every candidate passes the (empty) conditions vacuously,
and any cycle whose mutated candidate assigns `a = 0` — which is accepted
whenever the acceptance test passes, in particular while the best
difference is unset — yields difference `0` and terminates the loop
reporting the assignment `a = 0`; termination on the very first cycle is
not guaranteed, only on the first cycle whose candidate is `[0]`. -/
theorem claim8_amended_zero_candidate :
    (∀ ns : List ℚ, checkConditions evA cfg8.conditions ns = .ok (true, [])) ∧
    (∀ (t : Tape) (fuel : Nat) (s : FuzzState) (np qp : Nat),
        mutate cfg8 t fuel s.corpus s.natPos s.qPos = some ([0], np, qp) →
        decideAccept s.best 0 = true →
        ∃ s', step cfg8 evA t fuel s = .done s' [0]) := by
  refine ⟨fun _ => rfl, ?_⟩
  intro t fuel s np qp hm ha
  have hc : checkConditions evA cfg8.conditions [0] = .ok (true, []) := rfl
  have hd : numStructToDiff evA cfg8.expr1 cfg8.expr2 [0] = .ok (0, 0, 0) := by
    with_unfolding_all rfl
  have hstep := step_scored hm hc hd
  rw [ha] at hstep
  simp only [if_true] at hstep
  exact ⟨_, hstep⟩

/-- Witness for C8 (amended): with all tape draws equal to `1/2`, round
mode truncates every perturbation back to zero, the first candidate is
`[0]` and the loop terminates on the first cycle. -/
theorem claim8_amended_witness :
    ∃ s', step cfg8 evA tapeHalf 1 (initState cfg8) = .done s' [0] :=
  claim8_amended_zero_candidate.2 tapeHalf 1 (initState cfg8) 7 3
    (by with_unfolding_all rfl) (by with_unfolding_all rfl)

/-- C9: the difference of a scored candidate is the absolute value of
the gap between the two expression results, and the best difference of
any reachable state, when set, is non-negative. -/
theorem claim9_nonneg_best :
    (∀ (ev : Evaluator) (e1 e2 : String) (ns : List ℚ) (r1 r2 d : ℚ),
        numStructToDiff ev e1 e2 ns = .ok (r1, r2, d) → d = |r1 - r2| ∧ 0 ≤ d) ∧
    (∀ (cfg : Config) (ev : Evaluator) (t : Tape) (fuel n : Nat) (s : FuzzState),
        (runFuzz cfg ev t fuel n (initState cfg)).state? = some s →
        s.best = none ∨ ∃ d, s.best = some d ∧ 0 ≤ d) :=
  ⟨fun _ _ _ _ _ _ _ h => ⟨(numStructToDiff_ok h).1, (numStructToDiff_ok h).2.1⟩,
   fun _ _ _ _ n s hr => runFuzz_bestNonneg n s hr⟩

/-- Witness for C9 at the concrete two-iteration run. -/
theorem claim9_witness :
    ((21 : ℚ) = |21 - 0| ∧ (0 : ℚ) ≤ 21) ∧
    (s21b.best = none ∨ ∃ d, s21b.best = some d ∧ 0 ≤ d) :=
  ⟨claim9_nonneg_best.1 evA "a" "0" [21] 21 0 21 (by with_unfolding_all rfl),
   claim9_nonneg_best.2 cfg8 evA tape7 1 2 s21b (by with_unfolding_all rfl)⟩

/-- C10: every CLI invocation that starts a search constructs the fuzzer
with `NumNumbers = 6`, round mode enabled (the constructor default,
never overridden by `main`), the two expressions from `argv[1]`,
`argv[2]` and the conditions from `argv[3..]`; consequently the shipped
program only ever stores integer-valued assignments in its corpus.  The
CLI exposes no way to disable round mode. -/
theorem claim10_cli_round_always_true :
    (∀ (argv : List String) (cfg : Config), mainModel argv = some cfg →
        cfg.round = true ∧ cfg.NumNumbers = 6 ∧
        cfg.expr1 = argv.getD 1 "" ∧ cfg.expr2 = argv.getD 2 "" ∧
        cfg.conditions = argv.drop 3) ∧
    (∀ (argv : List String) (cfg : Config) (ev : Evaluator) (t : Tape)
        (fuel n : Nat) (s : FuzzState), mainModel argv = some cfg →
        (runFuzz cfg ev t fuel n (initState cfg)).state? = some s →
        ∀ a ∈ s.corpus, allIntegral a) := by
  have hmain : ∀ (argv : List String) (cfg : Config), mainModel argv = some cfg →
      cfg.round = true ∧ cfg.NumNumbers = 6 ∧
      cfg.expr1 = argv.getD 1 "" ∧ cfg.expr2 = argv.getD 2 "" ∧
      cfg.conditions = argv.drop 3 := by
    intro argv cfg h
    rw [mainModel] at h
    split at h
    · exact Option.noConfusion h
    · rw [Option.some.injEq] at h
      subst h
      exact ⟨rfl, rfl, rfl, rfl, rfl⟩
  refine ⟨hmain, ?_⟩
  intro argv cfg ev t fuel n s hargv hr
  exact runFuzz_integral (hmain argv cfg hargv).1 n s hr

/-- Witness for C10 at the concrete invocation `prog a 0`. -/
theorem claim10_witness :
    cfgMain.round = true ∧ cfgMain.NumNumbers = 6 ∧
    cfgMain.expr1 = (["prog", "a", "0"] : List String).getD 1 "" ∧
    cfgMain.expr2 = (["prog", "a", "0"] : List String).getD 2 "" ∧
    cfgMain.conditions = (["prog", "a", "0"] : List String).drop 3 :=
  claim10_cli_round_always_true.1 ["prog", "a", "0"] cfgMain (by with_unfolding_all rfl)
